import Mathlib

/-!
Verification of the stream combinator library in src/stream.h.

The library wraps a C++20 view in a `StreamImpl` record.  Every view in the
repository denotes a finite ordered sequence, so a stream is embedded as the
`List` of elements it produces when traversed; `Collect()` materialises exactly
that list, and every combinator is embedded as the list transformation its view
adaptor denotes.  Machine integers are modelled as `Int`/`Nat` (no overflow is
relevant to the claims), `double` elements are modelled as `Rat` (all concrete
inputs in the claims are dyadic, hence exact), and operations whose C++
precondition can be violated return `Option` (with `none` for the undefined
case).
-/

set_option maxHeartbeats 1000000

namespace StreamImpl

variable {α : Type} {β : Type} {γ : Type}

/-- Model of `Map` (stream.h line 16): `View | std::views::transform(Func)`,
which denotes the elementwise image of the sequence. -/
def Map (f : α → β) (l : List α) : List β := l.map f

/-- Model of `Filter` (stream.h line 41): `View | std::views::filter(Func)`,
the subsequence of elements on which the predicate is true. -/
def Filter (p : α → Bool) (l : List α) : List α := l.filter p

/-- Model of `Reject` (stream.h line 48): filters with the negated predicate
`[Func](auto Value){ return !Func(Value); }`. -/
def Reject (p : α → Bool) (l : List α) : List α := l.filter (fun x => ! p x)

/-- Model of `Take` (stream.h line 56): `View | std::views::take(Count)`. -/
def Take (n : ℕ) (l : List α) : List α := l.take n

/-- Model of `Each` (stream.h line 23): a `Map` whose function runs `Func`
for its effect and returns the value unchanged.  The user function is kept in
the term so that the definition mirrors the wrapping lambda. -/
def Each (f : α → Unit) (l : List α) : List α :=
  Map (fun v => (fun _ => v) (f v)) l

/-- Model of `Join` (stream.h line 70): `View | std::views::join`, one level
of flattening. -/
def Join (l : List (List α)) : List α := l.flatten

/-- Model of `Keys` (stream.h line 77): `View | std::views::keys`. -/
def Keys (l : List (α × β)) : List α := l.map Prod.fst

/-- Model of `Values` (stream.h line 84): `View | std::views::values`. -/
def Values (l : List (α × β)) : List β := l.map Prod.snd

/-- Model of the nullary `Count` (stream.h line 162):
`std::ranges::distance(View)`, the number of elements of the sequence. -/
def CountLen (l : List α) : ℕ := l.length

/-- Model of the unary `Count(Value)` (stream.h line 168):
`std::ranges::count(View, Value)`, the number of elements equal to `Value`. -/
def CountVal [BEq α] (v : α) (l : List α) : ℕ := l.count v

/-- Model of `WithIndex` (stream.h line 126): `iota(0, Count())` transformed
by `Index ↦ (Index, *next(View.begin(), Index))`, i.e. the list of pairs
`(i, element at position i)`. -/
def WithIndex (l : List α) : List (ℕ × α) := (List.range l.length).zip l

/-- Model of `All` (stream.h line 91): `Count() == Filter(Func).Count()`. -/
def All (p : α → Bool) (l : List α) : Bool :=
  CountLen l == CountLen (Filter p l)

/-- Model of `Any` (stream.h line 98): `Filter(Func).Count() > 0`. -/
def Any (p : α → Bool) (l : List α) : Bool :=
  decide (0 < CountLen (Filter p l))

/-- Model of `std::accumulate(View.begin(), View.end(), InitialValue, Func)`
as used by `Reduce` (stream.h line 35): the running accumulator is threaded
left to right through the sequence. -/
def accumulate (f : β → α → β) (init : β) : List α → β
  | [] => init
  | x :: l => accumulate f (f init x) l

/-- Model of `Reduce` (stream.h line 33): the accumulated value wrapped in
`std::views::single`, i.e. a one element sequence. -/
def Reduce (init : β) (f : β → α → β) (l : List α) : List β :=
  [accumulate f init l]

/-- Model of `Uniq` (stream.h line 105): pair each element with its index,
map the pair to (number of occurrences of the value among the first `Index`
elements, value), reject pairs with a positive count, and project the value. -/
def Uniq [DecidableEq α] (l : List α) : List α :=
  Map (fun p => p.2)
    (Reject (fun p => decide (0 < p.1))
      (Map (fun p => (CountVal p.2 (Take p.1 l), p.2)) (WithIndex l)))

/-- Model of `ChunkEvery` (stream.h line 174) for a positive chunk size:
`iota(0, (distance + Count - 1) / Count)` transformed by
`Index ↦ subrange(begin + Index*Count, begin + Index*Count + min(Count, rest))`,
i.e. chunk `i` is `take s` of `drop (i*s)`. -/
def ChunkEvery (s : ℕ) (l : List α) : List (List α) :=
  (List.range ((l.length + s - 1) / s)).map (fun i => (l.drop (i * s)).take s)

/- ### Claim C7: Reduce is a strictly left-to-right fold wrapped as a
one-element stream -/

lemma accumulate_eq_foldl (f : β → α → β) :
    ∀ (init : β) (l : List α), accumulate f init l = l.foldl f init := by
  intro init l
  induction l generalizing init with
  | nil => rfl
  | cons x l ih => simp [accumulate, List.foldl_cons, ih]

/-- C7: `Reduce(initial, f)` computes the strictly left-to-right fold of `f`
over the sequence starting from `initial` (here: it equals `List.foldl`, whose
order of application is left to right and assumes nothing about `f`), and the
result is wrapped as a single-element stream, so collecting it yields a
one-element sequence.  The concrete conjuncts reproduce the repository test
(`Reduce(0, +)` over `range(1,5)` collects to `[15]`) and witness the
left-to-right order on a non-commutative function. -/
theorem c7_reduce_left_fold (init : β) (f : β → α → β) (l : List α) :
    Reduce init f l = [l.foldl f init]
      ∧ (Reduce init f l).length = 1
      ∧ Reduce (0 : ℤ) (fun a x => a + x) [1, 2, 3, 4, 5] = [15]
      ∧ Reduce (0 : ℤ) (fun a x => a * 10 + x) [1, 2, 3] = [123] := by
  refine ⟨?_, rfl, by decide, by decide⟩
  simp [Reduce, accumulate_eq_foldl]

/- ### Claim C8: All and Any semantics -/

lemma filter_length_eq_iff (p : α → Bool) (l : List α) :
    l.length = (l.filter p).length ↔ ∀ x ∈ l, p x = true := by
  constructor
  · intro h
    have hf : l.filter p = l :=
      (List.filter_sublist l).eq_of_length h.symm
    exact List.filter_eq_self.mp hf
  · intro h
    rw [List.filter_eq_self.mpr h]

/-- C8: `All(pred)` is true iff every element satisfies `pred` (hence
vacuously true on the empty sequence), and `Any(pred)` is true iff some
element satisfies `pred` (hence false on the empty sequence). -/
theorem c8_all_any_semantics (p : α → Bool) (l : List α) :
    (All p l = true ↔ ∀ x ∈ l, p x = true)
      ∧ All p ([] : List α) = true
      ∧ (Any p l = true ↔ ∃ x ∈ l, p x = true)
      ∧ Any p ([] : List α) = false := by
  refine ⟨?_, rfl, ?_, rfl⟩
  · simp only [All, CountLen, Filter, beq_iff_eq]
    exact filter_length_eq_iff p l
  · simp only [Any, CountLen, Filter, decide_eq_true_eq]
    rw [List.length_pos]
    constructor
    · intro h
      obtain ⟨a, ha⟩ := List.exists_mem_of_ne_nil _ h
      exact ⟨a, (List.mem_filter.mp ha).1, (List.mem_filter.mp ha).2⟩
    · rintro ⟨a, hmem, hp⟩ hnil
      have : a ∈ l.filter p := List.mem_filter.mpr ⟨hmem, hp⟩
      simp [hnil] at this

/- ### Claim C9: Reject is Filter of the negated predicate -/

lemma length_filter_add_length_filter_not (p : α → Bool) (l : List α) :
    (l.filter p).length + (l.filter (fun x => ! p x)).length = l.length := by
  induction l with
  | nil => rfl
  | cons a l ih =>
      cases h : p a <;> simp [List.filter_cons, h, ← ih] <;> omega

/-- C9: `Reject(p)` yields exactly the same sequence as `Filter(not p)` — the
elements on which `p` is false, in their original relative order (it is a
sublist of the input) — and `Filter(p).Count() + Reject(p).Count()` equals the
count of the original sequence. -/
theorem c9_reject_complement (p : α → Bool) (l : List α) :
    Reject p l = Filter (fun x => ! p x) l
      ∧ CountLen (Filter p l) + CountLen (Reject p l) = CountLen l
      ∧ (Reject p l).Sublist l
      ∧ (∀ x ∈ Reject p l, p x = false) := by
  refine ⟨rfl, ?_, List.filter_sublist l, ?_⟩
  · exact length_filter_add_length_filter_not p l
  · intro x hx
    have := (List.mem_filter.mp hx).2
    simpa using this

/- ### Claim C1: range(begin, end) semantics -/

/-- Denotation of `std::views::iota(lo, hi)` on integers inside its defined
range: the integers of the half-open interval `[lo, hi)` in increasing
order. -/
def iotaZ (lo hi : ℤ) : List ℤ :=
  (List.range (hi - lo).toNat).map (fun i : ℕ => lo + (i : ℤ))

/-- Model of `Stream::range` (stream.h line 218):
`StreamImpl{std::views::iota(Begin, End + 1)}`.  The `iota_view` constructor
has the precondition `value <= bound`; when `Begin <= End + 1` fails the
construction has no defined result, which the embedding records as `none`
(fallible code returns `Option`). -/
def rangeStream (a b : ℤ) : Option (List ℤ) :=
  if a ≤ b + 1 then some (iotaZ a (b + 1)) else none

/-- Specification-side description of the inclusive sequence
`[a, a+1, ..., b]`: emit `n` consecutive integers starting at `a`. -/
def incSeqGo : ℕ → ℤ → List ℤ
  | 0, _ => []
  | n + 1, x => x :: incSeqGo n (x + 1)

/-- The inclusive sequence `[a, a+1, ..., b]`; empty when `b < a`. -/
def incSeq (a b : ℤ) : List ℤ := incSeqGo (b + 1 - a).toNat a

lemma incSeqGo_eq_range_map (n : ℕ) :
    ∀ lo : ℤ, incSeqGo n lo = (List.range n).map (fun i : ℕ => lo + (i : ℤ)) := by
  induction n with
  | zero => intro lo; rfl
  | succ k ih =>
      intro lo
      rw [List.range_succ_eq_map, List.map_cons, List.map_map]
      simp only [incSeqGo, Nat.cast_zero, add_zero]
      rw [ih (lo + 1)]
      refine congrArg (lo :: ·) (List.map_congr_left ?_)
      intro i hi
      simp only [Function.comp_apply, Nat.succ_eq_add_one]
      push_cast
      ring

lemma iotaZ_eq_incSeq (a b : ℤ) : iotaZ a (b + 1) = incSeq a b := by
  rw [incSeq, incSeqGo_eq_range_map, iotaZ]

/-- C1 (amended): for `a ≤ b`, `range(a, b).Collect()` is the inclusive
sequence `[a, a+1, ..., b]`; `range(a, a).Collect()` is `[a]`; for
`b = a - 1` the result is the empty sequence; but for `b < a - 1` the call
violates the `iota_view` precondition `value <= bound` and produces no
defined sequence at all (modelled as `none`), rather than an empty one. -/
theorem c1_range_semantics (a b : ℤ) :
    (a ≤ b → rangeStream a b = some (incSeq a b))
      ∧ rangeStream a a = some [a]
      ∧ (b = a - 1 → rangeStream a b = some [])
      ∧ (b < a - 1 → rangeStream a b = none) := by
  refine ⟨?_, ?_, ?_, ?_⟩
  · intro hab
    rw [rangeStream, if_pos (by omega), iotaZ_eq_incSeq]
  · rw [rangeStream, if_pos (by omega), iotaZ_eq_incSeq]
    have h1 : (a + 1 - a).toNat = 1 := by omega
    rw [incSeq, h1]
    simp [incSeqGo]
  · intro hb
    subst hb
    rw [rangeStream, if_pos (by omega), iotaZ]
    have h0 : (a - 1 + 1 - a).toNat = 0 := by omega
    rw [h0]
    rfl
  · intro hb
    rw [rangeStream, if_neg (by omega)]

/-- Witness for C1: the amended theorem applied at concrete inputs, with every
hypothesis discharged there. -/
theorem c1_range_semantics_witness :
    rangeStream 1 3 = some (incSeq 1 3)
      ∧ rangeStream 5 4 = some []
      ∧ rangeStream 5 2 = none :=
  ⟨(c1_range_semantics 1 3).1 (by decide),
   (c1_range_semantics 5 4).2.2.1 (by decide),
   (c1_range_semantics 5 2).2.2.2 (by decide)⟩

/-- Counterexample for C1 as stated: the claim demands
`range(3, 1).Collect() = []`, but the construction violates the iota
precondition (`3 ≤ 1 + 1` is false), so no empty sequence is produced. -/
theorem c1_range_reversed_cex :
    rangeStream 3 1 = none ∧ rangeStream 3 1 ≠ some [] := by
  constructor
  · rfl
  · intro h
    simp [rangeStream] at h

/- ### Claim C2: Uniq keeps the first occurrence of every distinct value -/

/-- Specification-side first-occurrence deduplication: scan the sequence left
to right with a set of already seen values, keeping an element exactly when
its value has not been seen before. -/
def keepFirstGo [DecidableEq α] : List α → List α → List α
  | _, [] => []
  | seen, a :: l =>
      if a ∈ seen then keepFirstGo seen l else a :: keepFirstGo (a :: seen) l

/-- The first occurrence of every distinct value, in order of first
appearance. -/
def keepFirst [DecidableEq α] (l : List α) : List α := keepFirstGo [] l

lemma withIndex_eq_enumFrom (l : List α) : WithIndex l = List.enumFrom 0 l :=
  (List.enum_eq_zip_range l).symm

lemma uniq_go [DecidableEq α] (l : List α) :
    ∀ (pre seen : List α), (∀ x, x ∈ seen ↔ x ∈ pre) →
      List.map (fun p => p.2)
        (List.filter (fun p : ℕ × α => ! decide (0 < ((pre ++ l).take p.1).count p.2))
          (List.enumFrom pre.length l))
      = keepFirstGo seen l := by
  induction l with
  | nil => intro pre seen _; rfl
  | cons a l ih =>
      intro pre seen hseen
      rw [List.enumFrom_cons, List.filter_cons]
      have htake : ((pre ++ a :: l).take pre.length) = pre := List.take_left pre (a :: l)
      have hre : pre ++ a :: l = (pre ++ [a]) ++ l := by simp
      have hlen : pre.length + 1 = (pre ++ [a]).length := by simp
      by_cases hmem : a ∈ pre
      · have hcount : 0 < pre.count a := List.count_pos_iff.mpr hmem
        have hpred : (! decide (0 < ((pre ++ a :: l).take pre.length).count a)) = false := by
          rw [htake]
          simp [hcount]
        rw [hpred]
        simp only [if_neg Bool.false_ne_true]
        have hk : keepFirstGo seen (a :: l) = keepFirstGo seen l := by
          rw [keepFirstGo, if_pos ((hseen a).mpr hmem)]
        rw [hk, hre, hlen]
        refine ih (pre ++ [a]) seen ?_
        intro x
        rw [List.mem_append, List.mem_singleton]
        constructor
        · intro hx; exact Or.inl ((hseen x).mp hx)
        · rintro (hx | rfl)
          · exact (hseen x).mpr hx
          · exact (hseen x).mpr hmem
      · have hcount : pre.count a = 0 := List.count_eq_zero.mpr hmem
        have hpred : (! decide (0 < ((pre ++ a :: l).take pre.length).count a)) = true := by
          rw [htake]
          simp [hcount]
        rw [hpred]
        simp only [if_pos rfl, List.map_cons]
        have hnot : a ∉ seen := fun hx => hmem ((hseen a).mp hx)
        have hk : keepFirstGo seen (a :: l) = a :: keepFirstGo (a :: seen) l := by
          rw [keepFirstGo, if_neg hnot]
        rw [hk]
        refine congrArg (a :: ·) ?_
        rw [hre, hlen]
        refine ih (pre ++ [a]) (a :: seen) ?_
        intro x
        rw [List.mem_append, List.mem_singleton, List.mem_cons]
        constructor
        · rintro (rfl | hx)
          · exact Or.inr rfl
          · exact Or.inl ((hseen x).mp hx)
        · rintro (hx | rfl)
          · exact Or.inr ((hseen x).mpr hx)
          · exact Or.inl rfl

lemma Uniq_eq_keepFirst [DecidableEq α] (l : List α) : Uniq l = keepFirst l := by
  simp only [Uniq, Map, Reject, withIndex_eq_enumFrom]
  rw [List.filter_map, List.map_map]
  exact uniq_go l [] [] (by simp)

lemma keepFirstGo_sound [DecidableEq α] :
    ∀ (l seen : List α),
      (keepFirstGo seen l).Nodup ∧ ∀ x ∈ keepFirstGo seen l, x ∉ seen := by
  intro l
  induction l with
  | nil => intro seen; exact ⟨List.nodup_nil, by simp [keepFirstGo]⟩
  | cons a l ih =>
      intro seen
      by_cases h : a ∈ seen
      · rw [keepFirstGo, if_pos h]
        exact ih seen
      · rw [keepFirstGo, if_neg h]
        obtain ⟨hnd, hout⟩ := ih (a :: seen)
        refine ⟨List.nodup_cons.mpr ⟨?_, hnd⟩, ?_⟩
        · intro ha
          exact hout a ha (List.mem_cons_self a seen)
        · intro x hx
          rcases List.mem_cons.mp hx with rfl | hx
          · exact h
          · intro hxs
            exact hout x hx (List.mem_cons_of_mem a hxs)

lemma keepFirstGo_fixed [DecidableEq α] :
    ∀ (l seen : List α), l.Nodup → (∀ x ∈ l, x ∉ seen) →
      keepFirstGo seen l = l := by
  intro l
  induction l with
  | nil => intro seen _ _; rfl
  | cons a l ih =>
      intro seen hnd hout
      have ha : a ∉ seen := hout a (List.mem_cons_self a l)
      rw [keepFirstGo, if_neg ha]
      refine congrArg (a :: ·) (ih (a :: seen) (List.nodup_cons.mp hnd).2 ?_)
      intro x hx
      rw [List.mem_cons]
      rintro (rfl | hxs)
      · exact (List.nodup_cons.mp hnd).1 hx
      · exact hout x (List.mem_cons_of_mem a hx) hxs

lemma Uniq_idem [DecidableEq α] (l : List α) : Uniq (Uniq l) = Uniq l := by
  rw [Uniq_eq_keepFirst l, Uniq_eq_keepFirst (keepFirst l), keepFirst]
  exact keepFirstGo_fixed (keepFirst l) []
    (keepFirstGo_sound l []).1 (by simp)

/-- C2: `Uniq()` yields exactly the first occurrence of each distinct value in
order of first appearance (it equals the canonical seen-set scan `keepFirst`,
which keeps the element at position `i` precisely when its value does not
occur among positions `[0, i)`), `Uniq` is idempotent, and on
`[1,2,1,3,4,5,1,6,7]` it yields `[1,2,3,4,5,6,7]`. -/
theorem c2_uniq_first_occurrence [DecidableEq α] (l : List α) :
    Uniq l = keepFirst l
      ∧ Uniq (Uniq l) = Uniq l
      ∧ Uniq ([1, 2, 1, 3, 4, 5, 1, 6, 7] : List ℤ) = [1, 2, 3, 4, 5, 6, 7] :=
  ⟨Uniq_eq_keepFirst l, Uniq_idem l, by decide⟩

/- ### Claim C5: ChunkEvery partitions into consecutive groups -/

lemma numChunks_pos_eq (s n : ℕ) (hs : 0 < s) (hn : 0 < n) :
    (n + s - 1) / s = (n - 1) / s + 1 := by
  have he : n + s - 1 = (n - 1) + s := by omega
  rw [he, Nat.add_div_right _ hs]

lemma chunkEvery_nil (s : ℕ) (hs : 0 < s) : ChunkEvery s ([] : List α) = [] := by
  unfold ChunkEvery
  simp only [List.length_nil, Nat.zero_add]
  rw [Nat.div_eq_of_lt (by omega)]
  rfl

lemma chunkEvery_cons (s : ℕ) (hs : 0 < s) (l : List α) (hl : l ≠ []) :
    ChunkEvery s l = l.take s :: ChunkEvery s (l.drop s) := by
  have hn : 0 < l.length := List.length_pos.mpr hl
  unfold ChunkEvery
  rw [List.length_drop]
  have h1 : (l.length + s - 1) / s = (l.length - 1) / s + 1 :=
    numChunks_pos_eq s l.length hs hn
  have h2 : (l.length - s + s - 1) / s = (l.length - 1) / s := by
    rcases le_or_lt l.length s with h | h
    · have e1 : l.length - s = 0 := by omega
      rw [e1, Nat.zero_add, Nat.div_eq_of_lt (by omega), Nat.div_eq_of_lt (by omega)]
    · have e1 : l.length - s + s - 1 = l.length - 1 := by omega
      rw [e1]
  rw [h1, h2, List.range_succ_eq_map, List.map_cons, List.map_map]
  simp only [Nat.zero_mul, List.drop_zero]
  refine congrArg (l.take s :: ·) (List.map_congr_left ?_)
  intro i hi
  simp only [Function.comp_apply]
  rw [List.drop_drop]
  rw [show Nat.succ i * s = s + i * s from by rw [Nat.succ_mul, Nat.add_comm]]

lemma numChunks_bounds (s n : ℕ) (hs : 0 < s) :
    n ≤ s * ((n + s - 1) / s) ∧ s * ((n + s - 1) / s) < n + s := by
  obtain ⟨d, r, hr, hn⟩ : ∃ d r, r < s ∧ n = s * d + r :=
    ⟨n / s, n % s, Nat.mod_lt n hs, (Nat.div_add_mod n s).symm⟩
  have hq : (n + s - 1) / s = d + (r + s - 1) / s := by
    have he : n + s - 1 = s * d + (r + s - 1) := by omega
    rw [he, Nat.mul_add_div hs]
  rw [hq]
  by_cases h0 : r = 0
  · have hc : (r + s - 1) / s = 0 := Nat.div_eq_of_lt (by omega)
    rw [hc, Nat.add_zero]
    generalize hgen : s * d = m
    rw [hgen] at hn
    omega
  · have hc : (r + s - 1) / s = 1 := by
      have he : r + s - 1 = r - 1 + s := by omega
      rw [he, Nat.add_div_right _ hs, Nat.div_eq_of_lt (by omega)]
    rw [hc, Nat.mul_add, Nat.mul_one]
    generalize hgen : s * d = m
    rw [hgen] at hn
    omega

lemma chunkEvery_facts (s : ℕ) (hs : 0 < s) :
    ∀ (n : ℕ) (l : List α), l.length ≤ n →
      (ChunkEvery s l).flatten = l
        ∧ (∀ c ∈ (ChunkEvery s l).dropLast, c.length = s)
        ∧ (∀ c ∈ ChunkEvery s l, c ≠ [])
        ∧ (l ≠ [] → ∃ c, (ChunkEvery s l).getLast? = some c ∧
            c.length = if l.length % s = 0 then s else l.length % s) := by
  intro n
  induction n with
  | zero =>
      intro l hl
      have h0 : l = [] := List.length_eq_zero.mp (Nat.le_zero.mp hl)
      subst h0
      refine ⟨?_, ?_, ?_, ?_⟩ <;> simp [chunkEvery_nil s hs]
  | succ n ih =>
      intro l hl
      rcases eq_or_ne l [] with rfl | hne
      · refine ⟨?_, ?_, ?_, ?_⟩ <;> simp [chunkEvery_nil s hs]
      · have hlen : 0 < l.length := List.length_pos.mpr hne
        rw [chunkEvery_cons s hs l hne]
        have hdl : (l.drop s).length ≤ n := by
          rw [List.length_drop]; omega
        obtain ⟨ihj, ihd, ihne, ihlast⟩ := ih (l.drop s) hdl
        rcases le_or_lt l.length s with hsle | hslt
        · have hdrop : l.drop s = [] := List.drop_eq_nil_of_le hsle
          have htake : l.take s = l := List.take_of_length_le hsle
          rw [hdrop, chunkEvery_nil s hs, htake]
          refine ⟨by simp, by simp, ?_, ?_⟩
          · intro c hc
            rw [List.mem_singleton.mp hc]
            exact hne
          · intro _
            refine ⟨l, by simp, ?_⟩
            by_cases hmod : l.length % s = 0
            · rw [if_pos hmod]
              rcases Nat.lt_or_ge l.length s with h | h
              · rw [Nat.mod_eq_of_lt h] at hmod; omega
              · omega
            · rw [if_neg hmod]
              rcases Nat.lt_or_ge l.length s with h | h
              · rw [Nat.mod_eq_of_lt h]
              · have heq : l.length = s := Nat.le_antisymm hsle h
                rw [heq, Nat.mod_self] at hmod
                exact absurd rfl hmod
        · have hdne : l.drop s ≠ [] := by
            rw [Ne, List.drop_eq_nil_iff]; omega
          have hcne : ChunkEvery s (l.drop s) ≠ [] := by
            intro h
            apply hdne
            rw [← ihj, h]
            rfl
          have htlen : (l.take s).length = s := by
            rw [List.length_take]; omega
          refine ⟨?_, ?_, ?_, ?_⟩
          · rw [List.flatten_cons, ihj, List.take_append_drop]
          · rw [List.dropLast_cons_of_ne_nil hcne]
            intro c hc
            rcases List.mem_cons.mp hc with rfl | hc
            · exact htlen
            · exact ihd c hc
          · intro c hc
            rcases List.mem_cons.mp hc with rfl | hc
            · exact List.ne_nil_of_length_pos (by omega)
            · exact ihne c hc
          · intro _
            obtain ⟨c, hc1, hc2⟩ := ihlast hdne
            refine ⟨c, ?_, ?_⟩
            · obtain ⟨b, t, hbt⟩ := List.exists_cons_of_ne_nil hcne
              rw [hbt, List.getLast?_cons_cons, ← hbt]
              exact hc1
            · rw [hc2, List.length_drop]
              rw [← Nat.mod_eq_sub_mod (le_of_lt hslt)]

/-- C5: for positive `size`, `ChunkEvery(size)` yields consecutive groups in
order whose concatenation is the input, with `ceil(L / size)` groups (the
least `k` with `L ≤ size * k`, stated by the two inequalities), every
non-final group of exactly `size` elements, no empty group, and the final
group of `L mod size` elements when `size` does not divide `L` and `size`
elements otherwise; the two concrete conjuncts reproduce `ChunkEvery(2)` on
`range(1, 6)` and on `range(1, 5)`. -/
theorem c5_chunkEvery_shape (s : ℕ) (l : List α) (hs : 0 < s) :
    (ChunkEvery s l).length = (l.length + s - 1) / s
      ∧ l.length ≤ s * (ChunkEvery s l).length
      ∧ s * (ChunkEvery s l).length < l.length + s
      ∧ (ChunkEvery s l).flatten = l
      ∧ (∀ c ∈ (ChunkEvery s l).dropLast, c.length = s)
      ∧ (∀ c ∈ ChunkEvery s l, c ≠ [])
      ∧ (l ≠ [] → ∃ c, (ChunkEvery s l).getLast? = some c ∧
          c.length = if l.length % s = 0 then s else l.length % s)
      ∧ ChunkEvery 2 (iotaZ 1 7) = [[1, 2], [3, 4], [5, 6]]
      ∧ ChunkEvery 2 (iotaZ 1 6) = [[1, 2], [3, 4], [5]] := by
  have hlen : (ChunkEvery s l).length = (l.length + s - 1) / s := by
    simp [ChunkEvery]
  obtain ⟨hj, hd, hne, hlast⟩ := chunkEvery_facts s hs l.length l le_rfl
  obtain ⟨hb1, hb2⟩ := numChunks_bounds s l.length hs
  exact ⟨hlen, by rw [hlen]; exact hb1, by rw [hlen]; exact hb2,
    hj, hd, hne, hlast, by decide, by decide⟩

/-- Witness for C5: the theorem applied at a concrete chunk size and input,
with every hypothesis discharged there. -/
theorem c5_chunkEvery_shape_witness :
    (ChunkEvery 2 ([9, 8, 7] : List ℤ)).flatten = [9, 8, 7]
      ∧ (([9, 8, 7] : List ℤ) ≠ [] → ∃ c,
          (ChunkEvery 2 ([9, 8, 7] : List ℤ)).getLast? = some c ∧
          c.length = if ([9, 8, 7] : List ℤ).length % 2 = 0 then 2
            else ([9, 8, 7] : List ℤ).length % 2) :=
  ⟨(c5_chunkEvery_shape 2 [9, 8, 7] (by decide)).2.2.2.1,
   (c5_chunkEvery_shape 2 [9, 8, 7] (by decide)).2.2.2.2.2.2.1⟩

/- ### Claim C6: SplitBy splits on a delimiter token -/

/-- Denotation of `std::ranges::split_view` on a nonempty input: the segment
up to the next occurrence of the token, followed by the segments of the rest.
The recursion mirrors how the outer iterator of `split_view` repeatedly scans
for the next occurrence of the pattern and yields the subrange before it,
with a trailing empty subrange when the input ends with the token. -/
def splitSeg [DecidableEq α] (t : α) : List α → List (List α)
  | [] => [[]]
  | a :: l =>
      if a = t then [] :: splitSeg t l
      else
        match splitSeg t l with
        | [] => [[a]]
        | g :: gs => (a :: g) :: gs

/-- Model of `SplitBy` (stream.h line 63): `View | std::views::split(Token)`.
On an empty input `split_view` yields no subrange at all (its begin iterator
compares equal to the end sentinel), otherwise it yields the segments between
occurrences of the token. -/
def SplitBy [DecidableEq α] (t : α) (l : List α) : List (List α) :=
  if l.isEmpty then [] else splitSeg t l

lemma splitSeg_ne_nil [DecidableEq α] (t : α) (l : List α) : splitSeg t l ≠ [] := by
  induction l with
  | nil => simp [splitSeg]
  | cons a l ih =>
      rw [splitSeg]
      by_cases h : a = t
      · simp [h]
      · rw [if_neg h]
        rcases hs : splitSeg t l with _ | ⟨g, gs⟩
        · simp
        · simp

lemma splitSeg_length [DecidableEq α] (t : α) (l : List α) :
    (splitSeg t l).length = l.count t + 1 := by
  induction l with
  | nil => simp [splitSeg]
  | cons a l ih =>
      rw [splitSeg, List.count_cons]
      by_cases h : a = t
      · rw [if_pos h, List.length_cons, ih]
        simp [h]
      · rw [if_neg h]
        rcases hs : splitSeg t l with _ | ⟨g, gs⟩
        · exact absurd hs (splitSeg_ne_nil t l)
        · rw [hs] at ih
          simp only [List.length_cons] at ih ⊢
          have hba : (a == t) = false := by simp [h]
          rw [hba]
          simpa using ih

lemma splitSeg_intercalate [DecidableEq α] (t : α) (l : List α) :
    List.intercalate [t] (splitSeg t l) = l := by
  induction l with
  | nil => rfl
  | cons a l ih =>
      rw [splitSeg]
      by_cases h : a = t
      · rw [if_pos h]
        rcases hs : splitSeg t l with _ | ⟨g, gs⟩
        · exact absurd hs (splitSeg_ne_nil t l)
        · rw [hs] at ih
          rw [List.intercalate, List.intersperse_cons₂, List.flatten_cons,
            List.flatten_cons]
          simp only [List.nil_append, List.singleton_append]
          rw [h]
          exact congrArg (t :: ·) ih
      · rw [if_neg h]
        rcases hs : splitSeg t l with _ | ⟨g, gs⟩
        · exact absurd hs (splitSeg_ne_nil t l)
        · rw [hs] at ih
          cases gs with
          | nil => simpa [List.intercalate] using congrArg (a :: ·) ih
          | cons g2 gs2 =>
              rw [List.intercalate, List.intersperse_cons₂, List.flatten_cons] at ih ⊢
              simp only [List.cons_append]
              exact congrArg (a :: ·) ih

lemma splitSeg_not_mem [DecidableEq α] (t : α) (l : List α) :
    ∀ g ∈ splitSeg t l, t ∉ g := by
  induction l with
  | nil =>
      intro g hg
      rw [List.mem_singleton.mp hg]
      simp
  | cons a l ih =>
      intro g hg
      rw [splitSeg] at hg
      by_cases h : a = t
      · rw [if_pos h] at hg
        rcases List.mem_cons.mp hg with rfl | hg
        · simp
        · exact ih g hg
      · rw [if_neg h] at hg
        rcases hs : splitSeg t l with _ | ⟨g0, gs⟩
        · exact absurd hs (splitSeg_ne_nil t l)
        · rw [hs] at hg ih
          rcases List.mem_cons.mp hg with rfl | hg
          · intro hmem
            rcases List.mem_cons.mp hmem with rfl | hmem
            · exact h rfl
            · exact ih g0 (List.mem_cons_self g0 gs) hmem
          · exact ih g (List.mem_cons_of_mem g0 hg)

lemma splitSeg_append_not_mem [DecidableEq α] (t : α) :
    ∀ (l1 rest : List α), t ∉ l1 →
      splitSeg t (l1 ++ t :: rest) = l1 :: splitSeg t rest := by
  intro l1
  induction l1 with
  | nil =>
      intro rest _
      rw [List.nil_append, splitSeg, if_pos rfl]
  | cons a l1 ih =>
      intro rest hmem
      have ha : a ≠ t := fun h => hmem (h ▸ List.mem_cons_self a l1)
      have hl1 : t ∉ l1 := fun h => hmem (List.mem_cons_of_mem a h)
      rw [List.cons_append, splitSeg, if_neg ha, ih rest hl1]

lemma splitSeg_getLast_append [DecidableEq α] (t : α) (l : List α) :
    (splitSeg t (l ++ [t])).getLast? = some [] := by
  induction l with
  | nil => rw [List.nil_append, splitSeg, if_pos rfl]; rfl
  | cons a l ih =>
      rw [List.cons_append, splitSeg]
      by_cases h : a = t
      · rw [if_pos h]
        obtain ⟨b, bs, hbs⟩ :=
          List.exists_cons_of_ne_nil (splitSeg_ne_nil t (l ++ [t]))
        rw [hbs, List.getLast?_cons_cons, ← hbs]
        exact ih
      · rw [if_neg h]
        rcases hs : splitSeg t (l ++ [t]) with _ | ⟨g, gs⟩
        · exact absurd hs (splitSeg_ne_nil t (l ++ [t]))
        · have hlen : (splitSeg t (l ++ [t])).length = (l ++ [t]).count t + 1 :=
            splitSeg_length t (l ++ [t])
          have hgs : gs ≠ [] := by
            intro hnil
            rw [hs, hnil] at hlen
            simp at hlen
          rw [hs] at ih
          obtain ⟨b, bs, hbs⟩ := List.exists_cons_of_ne_nil hgs
          rw [hbs, List.getLast?_cons_cons, ← hbs]
          rw [hbs, List.getLast?_cons_cons, ← hbs] at ih
          exact ih

/-- C6: for every finite sequence and token, `SplitBy(token)` yields the
contiguous groups separated by occurrences of the token: the token appears in
no output group, re-interleaving the token between the groups reconstructs the
input exactly, and there are `count(token) + 1` groups; a leading occurrence
of the token yields an empty first group, a trailing occurrence an empty last
group, and two consecutive occurrences an empty group between them.  The
concrete conjunct evaluates the repository test input. -/
theorem c6_splitBy_semantics [DecidableEq α] (t : α) (l l1 l2 : List α) :
    List.intercalate [t] (SplitBy t l) = l
      ∧ (∀ g ∈ SplitBy t l, t ∉ g)
      ∧ (l ≠ [] → (SplitBy t l).length = l.count t + 1)
      ∧ (SplitBy t (t :: l)).head? = some []
      ∧ (SplitBy t (l ++ [t])).getLast? = some []
      ∧ (t ∉ l1 → SplitBy t (l1 ++ t :: t :: l2) = l1 :: [] :: splitSeg t l2)
      ∧ SplitBy (1 : ℤ) [1, 2, 1, 3, 4, 5, 1, 6, 7] = [[], [2], [3, 4, 5], [6, 7]] := by
  refine ⟨?_, ?_, ?_, ?_, ?_, ?_, by decide⟩
  · rw [SplitBy]
    rcases eq_or_ne l [] with rfl | hne
    · rfl
    · rw [if_neg (by simpa [List.isEmpty_iff] using hne)]
      exact splitSeg_intercalate t l
  · intro g hg
    rw [SplitBy] at hg
    rcases eq_or_ne l [] with rfl | hne
    · simp at hg
    · rw [if_neg (by simpa [List.isEmpty_iff] using hne)] at hg
      exact splitSeg_not_mem t l g hg
  · intro hne
    rw [SplitBy, if_neg (by simpa [List.isEmpty_iff] using hne)]
    exact splitSeg_length t l
  · rw [SplitBy, if_neg (by simp), splitSeg, if_pos rfl]
    rfl
  · rw [SplitBy, if_neg (by simp)]
    exact splitSeg_getLast_append t l
  · intro hmem
    rw [SplitBy, if_neg (by simp)]
    rw [splitSeg_append_not_mem t l1 (t :: l2) hmem, splitSeg, if_pos rfl]

/-- Witness for C6: the theorem applied at concrete inputs, with every
hypothesis discharged there. -/
theorem c6_splitBy_semantics_witness :
    ((SplitBy (0 : ℤ) [1, 0, 2]).length = ([1, 0, 2] : List ℤ).count 0 + 1)
      ∧ SplitBy (0 : ℤ) ([5] ++ 0 :: 0 :: [7]) = [5] :: [] :: splitSeg 0 [7] :=
  ⟨(c6_splitBy_semantics (0 : ℤ) [1, 0, 2] [] []).2.2.1 (by decide),
   (c6_splitBy_semantics (0 : ℤ) [1, 0, 2] [5] [7]).2.2.2.2.2.1 (by decide)⟩

/- ### Claim C3: which combinator calls traverse the upstream at call time -/

/-- Model of one call to `std::ranges::distance(View)`, the body of the
nullary `Count()`: it determines the length of the sequence and, being a walk
of the view from begin to end, counts as one traversal of the upstream
performed by the body that invokes it.  Every combinator body below is
embedded as a pair of the sequence denoted by the returned view and the
number of upstream traversals the body performs before returning. -/
def distanceCall (l : List α) : ℕ × ℕ := (l.length, 1)

/-- Call model of `Map` (stream.h line 16): the body only wraps the view in a
transform adaptor and performs no traversal. -/
def mapCall (f : α → β) (l : List α) : List β × ℕ := (Map f l, 0)

/-- Call model of `Each` (stream.h line 23): the body only builds the
wrapping lambda and delegates to `Map`; the user function is not invoked. -/
def eachCall (f : α → Unit) (l : List α) : List α × ℕ := (Each f l, 0)

/-- Call model of `Filter` (stream.h line 41): a filter adaptor is composed,
nothing is traversed. -/
def filterCall (p : α → Bool) (l : List α) : List α × ℕ := (Filter p l, 0)

/-- Call model of `Reject` (stream.h line 48): a filter adaptor with the
negated predicate is composed, nothing is traversed. -/
def rejectCall (p : α → Bool) (l : List α) : List α × ℕ := (Reject p l, 0)

/-- Call model of `Take` (stream.h line 56): a take adaptor is composed,
nothing is traversed. -/
def takeCall (n : ℕ) (l : List α) : List α × ℕ := (Take n l, 0)

/-- Call model of `SplitBy` (stream.h line 63): a split adaptor is composed,
nothing is traversed. -/
def splitByCall [DecidableEq α] (t : α) (l : List α) : List (List α) × ℕ :=
  (SplitBy t l, 0)

/-- Call model of `Join` (stream.h line 70): a join adaptor is composed,
nothing is traversed. -/
def joinCall (l : List (List α)) : List α × ℕ := (Join l, 0)

/-- Call model of `Keys` (stream.h line 77): a keys adaptor is composed,
nothing is traversed. -/
def keysCall (l : List (α × β)) : List α × ℕ := (Keys l, 0)

/-- Call model of `Values` (stream.h line 84): a values adaptor is composed,
nothing is traversed. -/
def valuesCall (l : List (α × β)) : List β × ℕ := (Values l, 0)

/-- Call model of `WithIndex` (stream.h line 126): the body evaluates
`Count()` — that is, `ranges::distance` over the upstream view — before the
new view is built, so the traversal count of `distanceCall` is incurred at
call time. -/
def withIndexCall (l : List α) : List (ℕ × α) × ℕ :=
  ((List.range (distanceCall l).1).zip l, (distanceCall l).2)

/-- Call model of `ChunkEvery` (stream.h line 174): the body evaluates
`std::ranges::distance(View)` to compute the number of chunks before the new
view is built, incurring the traversal of `distanceCall` at call time. -/
def chunkEveryCall (s : ℕ) (l : List α) : List (List α) × ℕ :=
  ((List.range (((distanceCall l).1 + s - 1) / s)).map
      (fun i => (l.drop (i * s)).take s),
   (distanceCall l).2)

/-- Call model of `Uniq` (stream.h line 105): the body starts with
`WithIndex()`, inheriting its call-time traversal; the mapping and rejection
stages are lazy adaptors. -/
def uniqCall [DecidableEq α] (l : List α) : List α × ℕ :=
  (Map (fun p => p.2)
    (Reject (fun p => decide (0 < p.1))
      (Map (fun p => (CountVal p.2 (Take p.1 l), p.2)) (withIndexCall l).1)),
   (withIndexCall l).2)

/-- C3 (amended): `Map`, `Each`, `Filter`, `Reject`, `Take`, `SplitBy`,
`Join`, `Keys` and `Values` perform no traversal of the upstream sequence at
call time, and the side effect of the function passed to `Each` is deferred;
but `WithIndex` and `ChunkEvery` each invoke `ranges::distance` on the
upstream at call time to compute its length, and `Uniq` does so through
`WithIndex`, so these three inspect the upstream when called rather than only
inside a terminal operation. -/
theorem c3_call_time_traversal [DecidableEq α] (f : α → β) (g : α → Unit)
    (p : α → Bool) (n s : ℕ) (t : α) (l : List α) (ll : List (List α))
    (lp : List (α × β)) :
    (mapCall f l).2 = 0
      ∧ (eachCall g l).2 = 0
      ∧ (filterCall p l).2 = 0
      ∧ (rejectCall p l).2 = 0
      ∧ (takeCall n l).2 = 0
      ∧ (splitByCall t l).2 = 0
      ∧ (joinCall ll).2 = 0
      ∧ (keysCall lp).2 = 0
      ∧ (valuesCall lp).2 = 0
      ∧ (withIndexCall l).2 = 1
      ∧ (chunkEveryCall s l).2 = 1
      ∧ (uniqCall l).2 = 1 :=
  ⟨rfl, rfl, rfl, rfl, rfl, rfl, rfl, rfl, rfl, rfl, rfl, rfl⟩

/-- Counterexample for C3 as stated: calling `WithIndex` on a concrete
three-element stream performs a traversal of the upstream (the
`ranges::distance` walk inside its call to `Count()`), so it is not true that
every listed combinator performs no traversal at call time. -/
theorem c3_withindex_eager_cex :
    (withIndexCall ([10, 20, 30] : List ℤ)).2 ≠ 0 := by decide

/- ### Claim C4: precondition violations are not surfaced as failures -/

/-- Model of `Min` (stream.h line 138): `*std::ranges::min_element(begin,
end)`.  On a nonempty sequence `min_element` points at a minimal element; on
an empty sequence it returns the end iterator and the dereference has no
defined value, so the embedding returns `none` there — there is no exception
path anywhere in the body. -/
def MinOp [Min α] (l : List α) : Option α := l.min?

/-- Model of `Max` (stream.h line 144): `*std::ranges::max_element(begin,
end)`, `none` on the empty sequence for the same reason as `MinOp`. -/
def MaxOp [Max α] (l : List α) : Option α := l.max?

/-- C4 evaluation at the failing inputs: `Min()` and `Max()` on the empty
stream have no defined value to return (the body dereferences the end
iterator), while on nonempty streams they return the extremal element; no
conjunct exhibits an explicit catchable failure, because the code has none. -/
theorem c4_min_max_empty_undefined :
    MinOp ([] : List ℤ) = none
      ∧ MaxOp ([] : List ℤ) = none
      ∧ MinOp ([3, 1, 2] : List ℤ) = some 1
      ∧ MaxOp ([3, 1, 2] : List ℤ) = some 3 :=
  ⟨rfl, rfl, by decide, by decide⟩

/- ### Claim C10: Sum accumulates into an int accumulator -/

/-- Truncation of a rational toward zero: the conversion a C++ floating point
value undergoes when assigned to an `int`.  On a reduced fraction this is the
numerator divided by the positive denominator with rounding toward zero. -/
def ratTrunc (q : ℚ) : ℤ := Int.tdiv q.num (q.den : ℤ)

/-- Model of `Sum` (stream.h line 150): `std::accumulate(View.begin(),
View.end(), 0)`.  The literal `0` fixes the accumulator type to `int`; each
step computes `acc + x` in the element type and assigns the result back to
the `int` accumulator, truncating toward zero.  Element type `double` is
modelled as `Rat`. -/
def Sum (l : List ℚ) : ℤ :=
  accumulate (fun acc x => ratTrunc ((acc : ℚ) + x)) 0 l

lemma ratTrunc_intCast (n : ℤ) : ratTrunc ((n : ℤ) : ℚ) = n := by
  rw [ratTrunc, Rat.num_intCast, Rat.den_intCast]
  exact Int.tdiv_one n

lemma sum_int_exact : ∀ (l : List ℤ) (acc : ℤ),
    accumulate (fun a x => ratTrunc ((a : ℚ) + x)) acc
        (l.map (fun z : ℤ => (z : ℚ)))
      = accumulate (fun a x => a + x) acc l := by
  intro l
  induction l with
  | nil => intro acc; rfl
  | cons z l ih =>
      intro acc
      rw [List.map_cons, accumulate, accumulate]
      have hstep : ratTrunc ((acc : ℚ) + (z : ℚ)) = acc + z := by
        rw [show ((acc : ℚ) + (z : ℚ)) = (((acc + z : ℤ) : ℤ) : ℚ) by push_cast; ring]
        exact ratTrunc_intCast (acc + z)
      rw [hstep, ih]

/-- C10: `Sum()` accumulates into an accumulator of the type of the literal
`0` (`int`) whatever the element type: each step adds the element to the
integer accumulator and truncates the running total toward zero (the shape of
`Sum [x, y]` spells this out), so `Sum()` over `[0.5, 0.5]` returns `0` even
though the exact element sum is `1`; on integer-valued elements the same
accumulator is exact. -/
theorem c10_sum_truncation (x y : ℚ) (li : List ℤ) :
    Sum [(1 : ℚ)/2, 1/2] = 0
      ∧ accumulate (fun a b => a + b) (0 : ℚ) [(1 : ℚ)/2, 1/2] = 1
      ∧ Sum [x, y] = ratTrunc ((ratTrunc (((0 : ℤ) : ℚ) + x) : ℚ) + y)
      ∧ Sum (li.map (fun z : ℤ => (z : ℚ)))
          = accumulate (fun a b => a + b) (0 : ℤ) li := by
  have hstep1 : ratTrunc (((0 : ℤ) : ℚ) + 1/2) = 0 := by
    have he : ((0 : ℤ) : ℚ) + 1/2 = (1 : ℚ)/2 := by norm_num
    rw [ratTrunc, he]
    rw [show ((1 : ℚ)/2).num = 1 by norm_num, show ((1 : ℚ)/2).den = 2 by norm_num]
    decide
  have hsum : Sum [(1 : ℚ)/2, 1/2]
      = ratTrunc ((ratTrunc (((0 : ℤ) : ℚ) + 1/2) : ℚ) + 1/2) := rfl
  refine ⟨?_, by norm_num [accumulate], rfl, sum_int_exact li 0⟩
  rw [hsum, hstep1]
  exact hstep1

end StreamImpl
